import Mathlib

/-!
# openclaw-pipeline: the deployment-lifecycle coordinator

A shallow embedding of `server/runner/pipeline.go` and `server/webhook/notifier.go`.

* Go strings are modelled as Lean strings (sequences of Unicode code points).
* The file system is seen by `ResolveName` only through `os.Stat` followed by
  `os.IsNotExist`; it is modelled as a predicate `marker` on identities that says whether
  the state file of an identity is reported as existing.
* The registry `running` is a finite map from identities to commands, modelled as a
  function into `Option`.
* The effects on the outside world (events given to the notifier, commands executed) are
  recorded in the state, oldest first.
-/

namespace OpenClaw

/-! ## Name resolver (`Pipeline.ResolveName`) -/

/-- The loop `for i := 1; i <= 100; i++` of `ResolveName`: `n` iterations remain and the
next index is `i`. Returns the value returned and the identities probed with `os.Stat`. -/
def ResolveName.loop (marker : String → Bool) (name : String) : Nat → Nat → String × List String
  | 0, _ => (name, [])
  | n + 1, i =>
    let candidate := name ++ toString i
    if marker candidate then
      let r := ResolveName.loop marker name n (i + 1)
      (r.1, candidate :: r.2)
    else
      (candidate, [candidate])

/-- The body of `ResolveName`, instrumented with the list of identities whose state file
was probed, in the order of the probes. -/
def ResolveName.run (marker : String → Bool) (name : String) : String × List String :=
  if marker name then
    let r := ResolveName.loop marker name 100 1
    (r.1, name :: r.2)
  else
    (name, [name])

/-- The identity returned by `ResolveName`. -/
def ResolveName (marker : String → Bool) (name : String) : String :=
  (ResolveName.run marker name).1

/-- The identities probed by `ResolveName`, in order. -/
def ResolveName.probes (marker : String → Bool) (name : String) : List String :=
  (ResolveName.run marker name).2

/-- The ordered candidate sequence `name, name1, name2, ..., name100`. -/
def candidates (name : String) : List String :=
  name :: (List.range' 1 100).map (fun i => name ++ toString i)

/-! ## Output sanitizer (`ansiRegex`, `filterOutput`) -/

/-- The escape character `\x1b`. -/
def esc : Char := Char.ofNat 27

/-- The character class `[0-9;]`. -/
def isParam (c : Char) : Bool := c.isDigit || c == ';'

/-- The character class `[a-zA-Z]`. -/
def isFinal (c : Char) : Bool := c.isAlpha

/-- Match of `[0-9;]*[a-zA-Z]` at the head of the text: the number of characters matched.
The two classes are disjoint, so the greedy star has a single way to match. -/
def ansiTail : List Char → Option Nat
  | [] => none
  | c :: cs =>
    if isParam c then (ansiTail cs).map (· + 1)
    else if isFinal c then some 1
    else none

/-- Match of `ansiRegex`, that is `\x1b\[[0-9;]*[a-zA-Z]`, at the head of the text: the
number of characters matched. -/
def ansiMatch : List Char → Option Nat
  | a :: b :: cs => if a = esc ∧ b = '[' then (ansiTail cs).map (· + 2) else none
  | _ => none

/-- The scan of `ansiRegex.ReplaceAllString(raw, "")`: `skip` characters of the current
match are still to be dropped; outside a match the leftmost match is looked for at every
position, and a character where none starts is copied. -/
def stripAnsi.go : Nat → List Char → List Char
  | _, [] => []
  | skip + 1, _ :: cs => stripAnsi.go skip cs
  | 0, c :: cs =>
    match ansiMatch (c :: cs) with
    | some n => stripAnsi.go (n - 1) cs
    | none => c :: stripAnsi.go 0 cs

/-- The text with the matches of `ansiRegex` removed. -/
def stripAnsi (raw : List Char) : List Char := stripAnsi.go 0 raw

/-- The function `strings.Split(s, "\n")`. -/
def splitLines : List Char → List (List Char)
  | [] => [[]]
  | c :: cs =>
    if c = '\n' then [] :: splitLines cs
    else
      match splitLines cs with
      | l :: ls => (c :: l) :: ls
      | [] => [[c]]

/-- The function `strings.Join(lines, "\n")`. -/
def joinLines : List (List Char) → List Char
  | [] => []
  | [l] => l
  | l :: l' :: ls => l ++ '\n' :: joinLines (l' :: ls)

/-- The predicate `unicode.IsSpace`. -/
def isSpace (c : Char) : Bool :=
  let n := c.toNat
  (9 ≤ n && n ≤ 13) || n == 0x20 || n == 0x85 || n == 0xA0 || n == 0x1680 ||
  (0x2000 ≤ n && n ≤ 0x200A) || n == 0x2028 || n == 0x2029 || n == 0x202F ||
  n == 0x205F || n == 0x3000

/-- The function `strings.TrimSpace`. -/
def TrimSpace (s : List Char) : List Char :=
  (s.dropWhile isSpace).rdropWhile isSpace

/-- The function `strings.Contains(s, substr)`. -/
def Contains : List Char → List Char → Bool
  | [], substr => substr.isEmpty
  | c :: cs, substr => substr.isPrefixOf (c :: cs) || Contains cs substr

/-- The test of `filterOutput` for docker pull and extract progress noise. -/
def isNoise (trimmed : List Char) : Bool :=
  Contains trimmed "Downloading".data || Contains trimmed "Extracting".data ||
  Contains trimmed "Waiting".data || Contains trimmed "Verifying".data ||
  Contains trimmed "Pull complete".data || Contains trimmed "Already exists".data ||
  Contains trimmed "Download complete".data || Contains trimmed "Pulling from".data ||
  Contains trimmed "Pulling fs layer".data || Contains trimmed "Digest:".data

/-- The loop of `filterOutput` over the lines, with the slice `filtered` built so far. -/
def filterOutput.loop : List (List Char) → List (List Char) → List (List Char)
  | [], filtered => filtered
  | line :: rest, filtered =>
    let trimmed := TrimSpace line
    if trimmed = [] then filterOutput.loop rest filtered
    else if isNoise trimmed then filterOutput.loop rest filtered
    else filterOutput.loop rest (filtered ++ [line])

/-- The function `filterOutput` on the characters of the text. -/
def filterOutput.chars (raw : List Char) : List Char :=
  let raw := stripAnsi raw
  joinLines (filterOutput.loop (splitLines raw) [])

/-- The function `filterOutput`. -/
def filterOutput (raw : String) : String :=
  String.mk (filterOutput.chars raw.data)

/-- The ten noisy substrings, as the claim lists them. -/
def noisySubstrings : List String :=
  ["Downloading", "Extracting", "Waiting", "Verifying", "Pull complete", "Already exists",
   "Download complete", "Pulling from", "Pulling fs layer", "Digest:"]

/-- A line is kept, in the words of the specification: it is not empty after trimming
white space and it contains none of the noisy substrings. -/
def keptLine (line : List Char) : Prop :=
  TrimSpace line ≠ [] ∧ ∀ s ∈ noisySubstrings, ¬ s.data <:+: line

/-- An ANSI control sequence: `ESC`, `[`, parameter bytes from `[0-9;]` and a final ASCII
letter. -/
def IsAnsiSeq (s : List Char) : Prop :=
  ∃ ps c, s = esc :: '[' :: (ps ++ [c]) ∧ (∀ p ∈ ps, isParam p = true) ∧ isFinal c = true

/-- The text contains an occurrence of an ANSI control sequence. -/
def HasAnsiSeq (s : List Char) : Prop :=
  ∃ seq, IsAnsiSeq seq ∧ seq <:+: s

/-! ## Notification relay (`webhook.Notifier`) -/

/-- The launch request `LaunchParams`. -/
structure LaunchParams where
  Name : String
  Token : String
  ClaudeCodeOAuthToken : String
  Cloudflare : Bool
  deriving DecidableEq, Repr

/-- The result `LaunchResult`; `Error` is empty when the field is not set. -/
structure LaunchResult where
  Name : String
  Error : String
  deriving DecidableEq, Repr

/-- The type `EventType` is a string. -/
abbrev EventType := String

def EventLaunching : EventType := "launching"
def EventCompleted : EventType := "completed"
def EventFailed : EventType := "failed"

/-- The values that `Launch` passes as the `Data` of an event. -/
inductive Data where
  | nil
  | params (p : LaunchParams)
  | result (r : LaunchResult)
  deriving DecidableEq, Repr

/-- The lifecycle event `Event`; the field `Type` is called `Typ` here. -/
structure Event where
  Typ : EventType
  Name : String
  Message : String
  Timestamp : String
  Data : Data
  deriving DecidableEq, Repr

/-- The notifier, with the events that `Forward` serialised, logged and posted to the
frontend, oldest first. -/
structure Notifier where
  frontendURL : String
  forwarded : List Event

/-- The method `Notifier.Forward`; `now` is the reading of the clock. The three values that
`Launch` uses as `Data` serialise without error, so the event is always logged and posted. -/
def Notifier.Forward (n : Notifier) (now : String) (event : Event) : Notifier :=
  let event := if event.Timestamp = "" then { event with Timestamp := now } else event
  { n with forwarded := n.forwarded ++ [event] }

/-- The method `Notifier.Send`. -/
def Notifier.Send (n : Notifier) (now : String) (name : String) (eventType : EventType)
    (message : String) (data : Data) : Notifier :=
  n.Forward now
    { Typ := eventType, Name := name, Message := message, Timestamp := now, Data := data }

/-! ## Run registry and launch supervisor (`Pipeline`) -/

/-- The command `exec.Cmd`: argument list, working directory and environment. -/
structure Cmd where
  Args : List String
  Dir : String
  Env : List String
  deriving DecidableEq, Repr

/-- The pipeline: its directory, its notifier, the map `running`, and the commands that
were executed with `CombinedOutput`, oldest first. -/
structure Pipeline where
  dir : String
  notifier : Notifier
  running : String → Option Cmd
  executed : List Cmd

/-- The constructor `New`. -/
def New (dir : String) (notifier : Notifier) : Pipeline :=
  { dir := dir, notifier := notifier, running := fun _ => none, executed := [] }

/-- The method `IsRunning`. -/
def IsRunning (p : Pipeline) (name : String) : Bool :=
  (p.running name).isSome

/-- The assignment `p.running[name] = cmd`. -/
def mapSet (m : String → Option Cmd) (name : String) (cmd : Cmd) : String → Option Cmd :=
  fun k => if k = name then some cmd else m k

/-- The call `delete(p.running, name)`. -/
def mapDelete (m : String → Option Cmd) (name : String) : String → Option Cmd :=
  fun k => if k = name then none else m k

/-- The call `p.notifier.Send`. -/
def Pipeline.Send (p : Pipeline) (now : String) (name : String) (eventType : EventType)
    (message : String) (data : Data) : Pipeline :=
  { p with notifier := p.notifier.Send now name eventType message data }

/-- The identity of a launch: the empty name becomes `main`. -/
def Launch.name (params : LaunchParams) : String :=
  if params.Name = "" then "main" else params.Name

/-- The argument list that `Launch` assembles. -/
def Launch.args (name : String) (params : LaunchParams) : List String :=
  let cloudflare := if params.Cloudflare then "true" else "false"
  let args := ["make", "ec2-full-setup", "NAME=" ++ name, "CLOUDFLARE=" ++ cloudflare]
  let args :=
    if params.ClaudeCodeOAuthToken ≠ "" then
      args ++ ["CLAUDE_CODE_OAUTH_TOKEN=" ++ params.ClaudeCodeOAuthToken]
    else args
  if params.Token ≠ "" then args ++ ["TOKEN=" ++ params.Token] else args

/-- The command that `Launch` assembles; `environ` is what `cmd.Environ()` returns. -/
def Launch.cmd (dir : String) (environ : List String) (name : String)
    (params : LaunchParams) : Cmd :=
  let env := environ ++ ["CLAUDE_CODE_OAUTH_TOKEN=" ++ params.ClaudeCodeOAuthToken]
  let env := if params.Token ≠ "" then env ++ ["OPENCLAW_GATEWAY_TOKEN=" ++ params.Token] else env
  { Args := Launch.args name params, Dir := dir, Env := env }

/-- The method `Launch` up to the `go` statement, run without interruption: the new state
and, when the conflict check passed, the identity and the command of the goroutine. -/
def Launch (p : Pipeline) (now : String) (environ : List String) (params : LaunchParams) :
    Pipeline × Option (String × Cmd) :=
  let name := Launch.name params
  if (p.running name).isSome then
    (p.Send now name EventFailed ("deployment already running for " ++ name) Data.nil, none)
  else
    let p := p.Send now name EventLaunching ("starting ec2-full-setup for " ++ name)
      (Data.params params)
    let cmd := Launch.cmd p.dir environ name params
    let p := { p with running := mapSet p.running name cmd }
    (p, some (name, cmd))

/-- The goroutine of `Launch` before its deferred function: the command is executed, with
combined output `output` and error `err`, and the terminal event is sent. -/
def Launch.body (p : Pipeline) (now : String) (name : String) (cmd : Cmd) (output : String)
    (err : Option String) : Pipeline :=
  let p := { p with executed := p.executed ++ [cmd] }
  let outStr := filterOutput output
  match err with
  | some e =>
    p.Send now name EventFailed ("ec2-full-setup failed: " ++ e)
      (Data.result { Name := name, Error := outStr })
  | none =>
    p.Send now name EventCompleted ("deployment complete for " ++ name)
      (Data.result { Name := name, Error := "" })

/-- The deferred function of the goroutine. -/
def Launch.cleanup (p : Pipeline) (name : String) : Pipeline :=
  { p with running := mapDelete p.running name }

/-- The goroutine of `Launch`: its body, then its deferred function. -/
def Launch.goroutine (p : Pipeline) (now : String) (name : String) (cmd : Cmd)
    (output : String) (err : Option String) : Pipeline :=
  Launch.cleanup (Launch.body p now name cmd output err) name

/-! ### Interleaving of launches

The mutex makes each locked region atomic. A call of `Launch` is cut at the places where
the mutex is released, and calls running in different goroutines interleave at these
places. -/

/-- What the outside world answers during a step: the clock, `cmd.Environ()`, and the
result of `cmd.CombinedOutput()`. -/
structure Readings where
  now : String
  environ : List String
  output : String
  err : Option String

/-- The places at which a call of `Launch` can be between two steps. -/
inductive LaunchPC where
  /-- The call has been made (line 111). -/
  | start (params : LaunchParams)
  /-- The conflict check passed and the mutex was released (line 122). -/
  | checked (name : String) (params : LaunchParams)
  /-- The launching event was sent and the command assembled (line 151). -/
  | built (name : String) (cmd : Cmd)
  /-- The command is registered and the goroutine started (line 156). -/
  | spawned (name : String) (cmd : Cmd)
  /-- The terminal event was sent; the deferred function has not run yet. -/
  | finishing (name : String)
  /-- The call and its goroutine have returned. -/
  | done
  deriving DecidableEq, Repr

/-- One step of a call of `Launch`. -/
def Launch.step (p : Pipeline) (w : Readings) : LaunchPC → Pipeline × LaunchPC
  | .start params =>
    let name := Launch.name params
    if (p.running name).isSome then
      (p.Send w.now name EventFailed ("deployment already running for " ++ name) Data.nil,
        .done)
    else (p, .checked name params)
  | .checked name params =>
    (p.Send w.now name EventLaunching ("starting ec2-full-setup for " ++ name)
        (Data.params params),
      .built name (Launch.cmd p.dir w.environ name params))
  | .built name cmd => ({ p with running := mapSet p.running name cmd }, .spawned name cmd)
  | .spawned name cmd => (Launch.body p w.now name cmd w.output w.err, .finishing name)
  | .finishing name => (Launch.cleanup p name, .done)
  | .done => (p, .done)

/-- The pipeline together with the calls of `Launch` in progress. -/
structure System where
  pipeline : Pipeline
  calls : List LaunchPC

/-- The call number `i` makes one step. -/
def System.step (s : System) (i : Nat) (w : Readings) : System :=
  match s.calls.get? i with
  | none => s
  | some pc =>
    let r := Launch.step s.pipeline w pc
    { pipeline := r.1, calls := s.calls.set i r.2 }

/-- The steps of a schedule, in order. -/
def System.run (s : System) (schedule : List (Nat × Readings)) : System :=
  schedule.foldl (fun s a => s.step a.1 a.2) s

/-- What happens to the pipeline between the registration of a launch and its completion:
other calls of `Launch`, and goroutines of launches that complete. -/
inductive Action where
  | launch (now : String) (environ : List String) (params : LaunchParams)
  | complete (now : String) (name : String) (cmd : Cmd) (output : String) (err : Option String)

/-- The effect of an action on the pipeline. -/
def Action.apply (p : Pipeline) : Action → Pipeline
  | .launch now environ params => (Launch p now environ params).1
  | .complete now name cmd output err => Launch.goroutine p now name cmd output err

/-- The action is the completion of a launch of this identity. -/
def Action.completes (name : String) : Action → Prop
  | .launch _ _ _ => False
  | .complete _ n _ _ _ => n = name

/-- The strings of a payload that `json.Marshal` writes into the event body. -/
def Data.strings : Data → List String
  | .nil => []
  | .params p => [p.Name, p.Token, p.ClaudeCodeOAuthToken]
  | .result r => if r.Error = "" then [r.Name] else [r.Name, r.Error]

/-- The payload contains the string `secret` in one of its fields. -/
def Data.mentions (d : Data) (secret : String) : Prop :=
  ∃ s ∈ d.strings, secret.data <:+: s.data

/-! ## Definitions used in the statements and proofs -/

/-- The decimal value of a digit string. -/
def decimalValue (ds : List Char) (acc : Nat) : Nat :=
  ds.foldl (fun a c => 10 * a + (c.toNat - 48)) acc

/-- The suffixed candidates with indices `i, i+1, ..., i+n-1`. -/
def suffixed (name : String) (i n : Nat) : List String :=
  (List.range' i n).map (fun k => name ++ toString k)

/-- Whether a line is kept can be decided. -/
instance keptLine.decidable (line : List Char) : Decidable (keptLine line) := by
  unfold keptLine
  exact inferInstance

/-- Every escape character of the text begins a control sequence. -/
def EscapesComplete (s : List Char) : Prop :=
  ∀ pre suf, s = pre ++ esc :: suf → ∃ seq rest, esc :: suf = seq ++ rest ∧ IsAnsiSeq seq

/-- The check, with the matcher, that at every escape character of the text a match of
`ansiRegex` starts. -/
def escapesCompleteB (s : List Char) : Bool :=
  s.tails.all (fun t => t.head? != some esc || (ansiMatch t).isSome)

/-- An escape character of the text is followed, after an optional `[` with parameter
bytes, by another escape character. -/
def EscapeRestarts (s : List Char) : Prop :=
  ∃ pre ps suf, s = pre ++ esc :: (ps ++ esc :: suf) ∧
    (ps = [] ∨ ∃ qs, ps = '[' :: qs ∧ ∀ q ∈ qs, isParam q = true)

/-- A pipeline with an empty registry. -/
def examplePipeline : Pipeline :=
  New "/app/pipeline" { frontendURL := "http://localhost:3000", forwarded := [] }

/-- A launch request for the identity `x` with the credential token `tok`. -/
def exampleParams : LaunchParams :=
  { Name := "x", Token := "", ClaudeCodeOAuthToken := "tok", Cloudflare := true }

/-- Readings of the outside world for the steps of the example. -/
def exampleReadings : Readings :=
  { now := "2026-01-01T00:00:00Z", environ := ["PATH=/usr/bin"], output := "", err := none }

/-- The launching event that `Launch` sends. -/
def launchingEvent (now : String) (params : LaunchParams) : Event :=
  { Typ := EventLaunching, Name := Launch.name params,
    Message := "starting ec2-full-setup for " ++ Launch.name params,
    Timestamp := now, Data := Data.params params }

/-- The event that `Launch` sends on a conflict. -/
def conflictEvent (now : String) (name : String) : Event :=
  { Typ := EventFailed, Name := name, Message := "deployment already running for " ++ name,
    Timestamp := now, Data := Data.nil }

/-- The terminal event that the goroutine sends. -/
def terminalEvent (now : String) (name : String) (output : String) : Option String → Event
  | none =>
    { Typ := EventCompleted, Name := name, Message := "deployment complete for " ++ name,
      Timestamp := now, Data := Data.result { Name := name, Error := "" } }
  | some e =>
    { Typ := EventFailed, Name := name, Message := "ec2-full-setup failed: " ++ e,
      Timestamp := now, Data := Data.result { Name := name, Error := filterOutput output } }

/-- A launch request with the empty name and the credential token `tok`. -/
def unnamedParams : LaunchParams :=
  { Name := "", Token := "", ClaudeCodeOAuthToken := "tok", Cloudflare := false }

/-- Two calls of `Launch` for the identity `x` on a pipeline with an empty registry. -/
def twoCalls : System :=
  { pipeline := examplePipeline, calls := [.start exampleParams, .start exampleParams] }

/-- The schedule in which both calls make the conflict check, both send the launching
event, both register, and then the first call runs its command and its deferred
function. -/
def firstCompletes : List (Nat × Readings) :=
  [(0, exampleReadings), (1, exampleReadings), (0, exampleReadings), (1, exampleReadings),
   (0, exampleReadings), (1, exampleReadings), (0, exampleReadings), (0, exampleReadings)]

/-! ## Name resolver: proofs -/

theorem digitChar_toNat (k : Nat) (hk : k < 10) : (Nat.digitChar k).toNat - 48 = k := by
  interval_cases k <;> rfl

theorem decimalValue_toDigitsCore (fuel : Nat) :
    ∀ n ds, n < fuel → decimalValue (Nat.toDigitsCore 10 fuel n ds) 0 = decimalValue ds n := by
  induction fuel with
  | zero => intro n ds h; omega
  | succ fuel ih =>
    intro n ds h
    unfold Nat.toDigitsCore
    by_cases h0 : n / 10 = 0
    · have hn : n < 10 := by omega
      simp only [h0, if_true]
      simp [decimalValue, Nat.mod_eq_of_lt hn, digitChar_toNat n hn]
    · simp only [h0, if_false]
      rw [ih (n / 10) _ (by omega)]
      have hd := digitChar_toNat (n % 10) (Nat.mod_lt _ (by decide))
      simp only [decimalValue, List.foldl_cons, hd]
      congr 1
      omega

theorem decimalValue_toString (n : Nat) : decimalValue (toString n).data 0 = n := by
  show decimalValue (Nat.repr n).data 0 = n
  simp only [Nat.repr, Nat.toDigits, List.asString]
  exact decimalValue_toDigitsCore (n + 1) n [] (by omega)

theorem toString_injective (i j : Nat) (h : toString i = toString j) : i = j := by
  have hi := decimalValue_toString i
  rw [h, decimalValue_toString] at hi
  exact hi.symm

theorem append_toString_inj (name : String) (i j : Nat)
    (h : name ++ toString i = name ++ toString j) : i = j := by
  apply toString_injective
  have hd := congrArg String.data h
  simp only [String.data_append] at hd
  exact String.ext (List.append_cancel_left hd)

theorem ne_append_toString (name : String) (j : Nat) (hj : 0 < j) :
    name ≠ name ++ toString j := by
  intro h
  have hd := congrArg String.data h
  simp only [String.data_append] at hd
  have he : (toString j).data = [] := by
    have := congrArg List.length hd
    simp at this
    exact List.eq_nil_of_length_eq_zero this
  have hv := decimalValue_toString j
  rw [he] at hv
  simp [decimalValue] at hv
  omega

theorem suffixed_succ (name : String) (i n : Nat) :
    suffixed name i (n + 1) = (name ++ toString i) :: suffixed name (i + 1) n := by
  simp [suffixed, List.range'_succ]

theorem loop_fst (marker : String → Bool) (name : String) (n : Nat) :
    ∀ i, (ResolveName.loop marker name n i).1 =
      ((suffixed name i n).find? (fun c => !marker c)).getD name := by
  induction n with
  | zero => intro i; simp [ResolveName.loop, suffixed]
  | succ n ih =>
    intro i
    rw [suffixed_succ]
    by_cases h : marker (name ++ toString i) = true
    · simp [ResolveName.loop, h, ih (i + 1)]
    · simp [ResolveName.loop, h]

theorem loop_probes_initial (marker : String → Bool) (name : String) (n : Nat) :
    ∀ i, (ResolveName.loop marker name n i).2 <+: suffixed name i n := by
  induction n with
  | zero => intro i; simp [ResolveName.loop, suffixed]
  | succ n ih =>
    intro i
    rw [suffixed_succ]
    by_cases h : marker (name ++ toString i) = true
    · simp only [ResolveName.loop, h, if_true]
      exact (List.prefix_cons_inj _).2 (ih (i + 1))
    · simp only [ResolveName.loop, h]
      simp [List.prefix_iff_eq_append]

theorem candidates_eq (name : String) : candidates name = name :: suffixed name 1 100 := rfl

theorem ResolveName_eq_find (marker : String → Bool) (name : String) :
    ResolveName marker name = ((candidates name).find? (fun c => !marker c)).getD name := by
  rw [candidates_eq]
  by_cases h : marker name = true
  · simp [ResolveName, ResolveName.run, h, loop_fst]
  · simp [ResolveName, ResolveName.run, h]

theorem probes_initial (marker : String → Bool) (name : String) :
    ResolveName.probes marker name <+: candidates name := by
  rw [candidates_eq]
  by_cases h : marker name = true
  · simp only [ResolveName.probes, ResolveName.run, h, if_true]
    exact (List.prefix_cons_inj _).2 (loop_probes_initial marker name 100 1)
  · simp only [ResolveName.probes, ResolveName.run, h]
    simp [List.prefix_iff_eq_append]

theorem candidates_length (name : String) : (candidates name).length = 101 := by
  simp [candidates]

theorem mem_candidates (name c : String) :
    c ∈ candidates name ↔ c = name ∨ ∃ i, 1 ≤ i ∧ i ≤ 100 ∧ c = name ++ toString i := by
  simp only [candidates, List.mem_cons, List.mem_map, List.mem_range'_1]
  constructor
  · rintro (h | ⟨i, ⟨h1, h2⟩, rfl⟩)
    · exact Or.inl h
    · exact Or.inr ⟨i, h1, by omega, rfl⟩
  · rintro (h | ⟨i, h1, h2, rfl⟩)
    · exact Or.inl h
    · exact Or.inr ⟨i, ⟨h1, by omega⟩, rfl⟩

theorem ResolveName_mem (marker : String → Bool) (name : String) :
    ResolveName marker name ∈ candidates name := by
  rw [ResolveName_eq_find]
  cases hf : (candidates name).find? (fun c => !marker c) with
  | none => simp [candidates]
  | some c => simpa using List.mem_of_find?_eq_some hf

theorem find_of_first (p : String → Bool) :
    ∀ (l : List String) (k : Nat) (c : String), l[k]? = some c → p c = true →
      (∀ d ∈ l.take k, p d = false) → l.find? p = some c := by
  intro l
  induction l with
  | nil => intro k c h; simp at h
  | cons x xs ih =>
    intro k c h hc hbefore
    cases k with
    | zero =>
      simp at h
      subst h
      simp [List.find?, hc]
    | succ k =>
      have hx : p x = false := hbefore x (by simp)
      simp only [List.getElem?_cons_succ] at h
      simp only [List.find?, hx]
      exact ih k c h hc (fun d hd => hbefore d (by simp [hd]))

/-- C1: `ResolveName` returns the first element of the candidate sequence
`name, name1, ..., name100` that has no state marker, whenever there is one: the candidate
at position `k` is returned when it has no marker and all candidates before it have one.
With no marker for `name` the result is `name`; with markers for `name`, `name1` and
`name2` and none for `name3` the result is `name3`. -/
theorem ResolveName_first_free (marker : String → Bool) (name : String) :
    (∀ k c, (candidates name)[k]? = some c → marker c = false →
      (∀ d ∈ (candidates name).take k, marker d = true) → ResolveName marker name = c) ∧
    (marker name = false → ResolveName marker name = name) ∧
    (marker name = true → marker (name ++ "1") = true → marker (name ++ "2") = true →
      marker (name ++ "3") = false → ResolveName marker name = name ++ "3") := by
  refine ⟨?_, ?_, ?_⟩
  · intro k c hk hc hbefore
    rw [ResolveName_eq_find,
      find_of_first (fun c => !marker c) (candidates name) k c hk (by simp [hc])
        (fun d hd => by simp [hbefore d hd])]
    rfl
  · intro h
    simp [ResolveName, ResolveName.run, h]
  · intro h0 h1 h2 h3
    have e1 : toString (1 : Nat) = "1" := by decide
    have e2 : toString (2 : Nat) = "2" := by decide
    have e3 : toString (3 : Nat) = "3" := by decide
    simp [ResolveName, ResolveName.run, ResolveName.loop, h0, e1, e2, e3, h1, h2, h3]

/-- Witness of C1 with markers for `a`, `a1` and `a2` only, and with no marker at all. -/
theorem ResolveName_first_free_witness :
    ResolveName (fun s => s = "a" ∨ s = "a1" ∨ s = "a2") "a" = "a3" ∧
    ResolveName (fun _ => false) "a" = "a" ∧
    ResolveName (fun s => s = "b" ∨ s = "b1" ∨ s = "b2") "b" = "b" ++ "3" :=
  ⟨(ResolveName_first_free (fun s => s = "a" ∨ s = "a1" ∨ s = "a2") "a").1 3 "a3"
      (by decide) (by decide) (by decide),
    (ResolveName_first_free (fun _ => false) "a").2.1 rfl,
    (ResolveName_first_free (fun s => s = "b" ∨ s = "b1" ∨ s = "b2") "b").2.2
      (by decide) (by decide) (by decide) (by decide)⟩

/-- C9: when a state marker exists for `name` and for each of `name1`, ..., `name100`,
`ResolveName` returns `name` unchanged. It probes at most 101 identities, which are an
initial segment of the candidate sequence, and what it returns is `name` or `name` with a
suffix between 1 and 100, never `name` with a suffix greater than 100. -/
theorem ResolveName_fallback (marker : String → Bool) (name : String) :
    (marker name = true → (∀ i, 1 ≤ i → i ≤ 100 → marker (name ++ toString i) = true) →
      ResolveName marker name = name) ∧
    (ResolveName.probes marker name).length ≤ 101 ∧
    ResolveName.probes marker name <+: candidates name ∧
    (ResolveName marker name = name ∨
      ∃ i, 1 ≤ i ∧ i ≤ 100 ∧ ResolveName marker name = name ++ toString i) ∧
    (∀ j, 100 < j → ResolveName marker name ≠ name ++ toString j) := by
  have hmem := (mem_candidates name _).1 (ResolveName_mem marker name)
  refine ⟨?_, ?_, probes_initial marker name, hmem, ?_⟩
  · intro h0 hall
    rw [ResolveName_eq_find]
    have hnone : (candidates name).find? (fun c => !marker c) = none := by
      rw [List.find?_eq_none]
      intro c hc
      rcases (mem_candidates name c).1 hc with rfl | ⟨i, h1, h2, rfl⟩
      · simp [h0]
      · simp [hall i h1 h2]
    rw [hnone]
    rfl
  · have := (probes_initial marker name).length_le
    rwa [candidates_length] at this
  · intro j hj heq
    rcases hmem with h | ⟨i, h1, h2, h⟩
    · rw [h] at heq
      exact ne_append_toString name j (by omega) heq
    · rw [h] at heq
      have := append_toString_inj name i j heq
      omega

/-- Witness of C9 with a marker for every identity. -/
theorem ResolveName_fallback_witness : ResolveName (fun _ => true) "a" = "a" :=
  (ResolveName_fallback (fun _ => true) "a").1 rfl (fun _ _ _ => rfl)

/-! ## Output sanitizer: proofs -/

theorem Contains_iff_isInfix (s substr : List Char) : Contains s substr = true ↔ substr <:+: s := by
  induction s with
  | nil => simp [Contains, List.infix_nil]
  | cons c cs ih =>
    simp only [Contains, Bool.or_eq_true, List.isPrefixOf_iff_prefix, ih, List.infix_cons_iff]

theorem dropWhile_append_keep {α : Type} (p : α → Bool) (c : α) (t : List α) (hc : p c = false) :
    ∀ a : List α, (a ++ c :: t).dropWhile p = a.dropWhile p ++ c :: t := by
  intro a
  induction a with
  | nil => simp [List.dropWhile, hc]
  | cons x a ih =>
    by_cases hx : p x = true
    · simp [List.dropWhile, hx, ih]
    · simp [List.dropWhile, hx]

theorem rdropWhile_append_keep {α : Type} (p : α → Bool) (t : List α) (c : α) (hc : p c = false)
    (b : List α) : (t ++ [c] ++ b).rdropWhile p = t ++ [c] ++ b.rdropWhile p := by
  unfold List.rdropWhile
  have h : (t ++ [c] ++ b).reverse = b.reverse ++ c :: t.reverse := by simp
  rw [h, dropWhile_append_keep p c t.reverse hc]
  simp

/-- Trimming white space keeps every occurrence of a text that neither starts nor ends
with white space. -/
theorem infix_TrimSpace_iff (s line : List Char)
    (hhead : s.head?.map isSpace = some false) (hlast : s.getLast?.map isSpace = some false) :
    s <:+: TrimSpace line ↔ s <:+: line := by
  constructor
  · intro h
    exact h.trans ((List.rdropWhile_prefix _ _).isInfix.trans (List.dropWhile_suffix _).isInfix)
  · rintro ⟨a, b, rfl⟩
    obtain ⟨c, hc, hcs⟩ := Option.map_eq_some'.1 hhead
    obtain ⟨t, ht⟩ := List.head?_eq_some_iff.1 hc
    obtain ⟨c', hc', hcs'⟩ := Option.map_eq_some'.1 hlast
    obtain ⟨t', ht'⟩ := List.getLast?_eq_some_iff.1 hc'
    have h1 : (a ++ s ++ b).dropWhile isSpace = a.dropWhile isSpace ++ s ++ b := by
      rw [ht]
      have := dropWhile_append_keep isSpace c (t ++ b) hcs a
      simpa using this
    have h2 : (a.dropWhile isSpace ++ s ++ b).rdropWhile isSpace
        = a.dropWhile isSpace ++ s ++ b.rdropWhile isSpace := by
      rw [ht']
      have := rdropWhile_append_keep isSpace (a.dropWhile isSpace ++ t') c' hcs' b
      simpa using this
    unfold TrimSpace
    rw [h1, h2]
    exact ⟨_, _, rfl⟩

theorem noisySubstrings_ends :
    ∀ s ∈ noisySubstrings, s.data.head?.map isSpace = some false ∧
      s.data.getLast?.map isSpace = some false := by
  decide

theorem isNoise_iff (trimmed : List Char) :
    isNoise trimmed = true ↔ ∃ s ∈ noisySubstrings, s.data <:+: trimmed := by
  simp only [isNoise, noisySubstrings, Bool.or_eq_true, Contains_iff_isInfix, List.mem_cons,
    List.mem_singleton, List.not_mem_nil, or_false, exists_eq_or_imp, exists_eq_left]
  tauto

theorem keptLine_iff (line : List Char) :
    keptLine line ↔ (TrimSpace line ≠ [] ∧ isNoise (TrimSpace line) = false) := by
  unfold keptLine
  have h : isNoise (TrimSpace line) = false ↔ ∀ s ∈ noisySubstrings, ¬ s.data <:+: line := by
    rw [← Bool.not_eq_true, isNoise_iff]
    constructor
    · intro h s hs hin
      exact h ⟨s, hs, (infix_TrimSpace_iff s.data line (noisySubstrings_ends s hs).1
        (noisySubstrings_ends s hs).2).2 hin⟩
    · rintro h ⟨s, hs, hin⟩
      exact h s hs ((infix_TrimSpace_iff s.data line (noisySubstrings_ends s hs).1
        (noisySubstrings_ends s hs).2).1 hin)
  rw [h]

theorem loop_eq_filter (lines : List (List Char)) :
    ∀ filtered, filterOutput.loop lines filtered
      = filtered ++ lines.filter (fun l => decide (keptLine l)) := by
  induction lines with
  | nil => intro filtered; simp [filterOutput.loop]
  | cons line rest ih =>
    intro filtered
    by_cases h1 : TrimSpace line = []
    · have hk : ¬ keptLine line := fun h => ((keptLine_iff line).1 h).1 h1
      simp [filterOutput.loop, h1, ih, hk]
    · by_cases h2 : isNoise (TrimSpace line) = true
      · have hk : ¬ keptLine line := fun h => by
          have := ((keptLine_iff line).1 h).2
          rw [h2] at this
          exact Bool.noConfusion this
        simp [filterOutput.loop, h1, h2, ih, hk]
      · have hk : keptLine line := (keptLine_iff line).2 ⟨h1, by simpa using h2⟩
        simp [filterOutput.loop, h1, h2, ih, hk]

/-- C7: the output of `filterOutput` is the join with `\n` of exactly those lines of the
text without its ANSI matches (split on `\n`) that are not empty after trimming white space
and contain none of the ten noisy substrings, verbatim and in their order. For instance
`ESC[31mHello` gives `Hello`, and a line containing `Downloading` and a blank line are
dropped. -/
theorem filterOutput_lines (raw : String) :
    filterOutput raw
        = String.mk (joinLines ((splitLines (stripAnsi raw.data)).filter
            (fun l => decide (keptLine l)))) ∧
    filterOutput "\x1b[31mHello" = "Hello" ∧
    filterOutput "first\nabc: Downloading 12MB\n\n \t \nlast" = "first\nlast" := by
  refine ⟨?_, by decide, by decide⟩
  simp [filterOutput, filterOutput.chars, loop_eq_filter]

theorem isParam_of_isFinal (c : Char) (h : isFinal c = true) : isParam c = false := by
  have hne : c ≠ ';' := by
    rintro rfl
    revert h
    decide
  simp only [isFinal, Char.isAlpha, Char.isUpper, Char.isLower, Bool.or_eq_true,
    Bool.and_eq_true, decide_eq_true_eq] at h
  simp only [isParam, Char.isDigit, Bool.or_eq_false_iff, Bool.and_eq_false_iff,
    decide_eq_false_iff_not, beq_eq_false_iff_ne, ne_eq]
  refine ⟨?_, hne⟩
  simp only [ge_iff_le, UInt32.le_def, Fin.le_def] at h ⊢
  have e65 : (UInt32.toBitVec 65).toNat = 65 := rfl
  have e90 : (UInt32.toBitVec 90).toNat = 90 := rfl
  have e97 : (UInt32.toBitVec 97).toNat = 97 := rfl
  have e122 : (UInt32.toBitVec 122).toNat = 122 := rfl
  have e48 : (UInt32.toBitVec 48).toNat = 48 := rfl
  have e57 : (UInt32.toBitVec 57).toNat = 57 := rfl
  simp only [BitVec.le_def, e65, e90, e97, e122, e48, e57] at h ⊢
  omega

theorem ansiTail_complete (c : Char) (rest : List Char) (hc : isFinal c = true) :
    ∀ ps : List Char, (∀ p ∈ ps, isParam p = true) →
      ansiTail (ps ++ c :: rest) = some (ps.length + 1) := by
  intro ps
  induction ps with
  | nil => intro _; simp [ansiTail, isParam_of_isFinal c hc, hc]
  | cons p ps ih =>
    intro h
    have hp : isParam p = true := h p (by simp)
    simp [ansiTail, hp, ih (fun q hq => h q (by simp [hq]))]

theorem ansiTail_sound :
    ∀ (s : List Char) (n : Nat), ansiTail s = some n →
      ∃ ps c rest, s = ps ++ c :: rest ∧ (∀ p ∈ ps, isParam p = true) ∧ isFinal c = true ∧
        n = ps.length + 1 := by
  intro s
  induction s with
  | nil => intro n h; simp [ansiTail] at h
  | cons x xs ih =>
    intro n h
    by_cases hx : isParam x = true
    · simp only [ansiTail, hx, if_true, Option.map_eq_some'] at h
      obtain ⟨m, hm, rfl⟩ := h
      obtain ⟨ps, c, rest, rfl, hps, hc, rfl⟩ := ih m hm
      refine ⟨x :: ps, c, rest, by simp, ?_, hc, by simp⟩
      intro p hp
      rcases List.mem_cons.1 hp with rfl | hp
      · exact hx
      · exact hps p hp
    · by_cases hf : isFinal x = true
      · have hx' : isParam x = false := by simpa using hx
        simp only [ansiTail, hx', hf, if_true, Option.some.injEq] at h
        simp at h
        exact ⟨[], x, xs, by simp, by simp, hf, by simp [← h]⟩
      · simp [ansiTail, hx, hf] at h

/-- The matcher finds every control sequence that starts the text. -/
theorem ansiMatch_complete (seq rest : List Char) (h : IsAnsiSeq seq) :
    ansiMatch (seq ++ rest) = some seq.length := by
  obtain ⟨ps, c, rfl, hps, hc⟩ := h
  have := ansiTail_complete c rest hc ps hps
  simp [ansiMatch, this]

/-- What the matcher finds is a control sequence that starts the text. -/
theorem ansiMatch_sound (s : List Char) (n : Nat) (h : ansiMatch s = some n) :
    ∃ seq rest, s = seq ++ rest ∧ IsAnsiSeq seq ∧ seq.length = n := by
  match s, h with
  | a :: b :: cs, h =>
    by_cases hab : a = esc ∧ b = '['
    · simp only [ansiMatch, hab, and_self, if_true, Option.map_eq_some'] at h
      obtain ⟨m, hm, rfl⟩ := h
      obtain ⟨ps, c, rest, rfl, hps, hc, rfl⟩ := ansiTail_sound cs m hm
      refine ⟨esc :: '[' :: (ps ++ [c]), rest, by simp [hab.1, hab.2], ⟨ps, c, rfl, hps, hc⟩, ?_⟩
      simp
    · simp [ansiMatch, hab] at h

theorem stripAnsi_go_skip : ∀ (k : Nat) (s : List Char),
    stripAnsi.go k s = stripAnsi.go 0 (s.drop k) := by
  intro k
  induction k with
  | zero => intro s; simp
  | succ k ih =>
    intro s
    cases s with
    | nil => simp [stripAnsi.go]
    | cons c cs => simp [stripAnsi.go, ih cs]

theorem stripAnsi_nil : stripAnsi [] = [] := rfl

theorem stripAnsi_cons_some (c : Char) (cs : List Char) (n : Nat)
    (h : ansiMatch (c :: cs) = some n) : stripAnsi (c :: cs) = stripAnsi (cs.drop (n - 1)) := by
  simp only [stripAnsi, stripAnsi.go, h]
  exact stripAnsi_go_skip _ _

theorem stripAnsi_cons_none (c : Char) (cs : List Char)
    (h : ansiMatch (c :: cs) = none) : stripAnsi (c :: cs) = c :: stripAnsi cs := by
  simp only [stripAnsi, stripAnsi.go, h]

theorem EscapesComplete.drop {s : List Char} (h : EscapesComplete s) (k : Nat) :
    EscapesComplete (s.drop k) := by
  intro pre suf hs
  apply h (s.take k ++ pre) suf
  rw [List.append_assoc, ← hs, List.take_append_drop]

theorem esc_not_mem_stripAnsi : ∀ (m : Nat) (s : List Char), s.length ≤ m →
    EscapesComplete s → esc ∉ stripAnsi s := by
  intro m
  induction m with
  | zero =>
    intro s hs _
    have : s = [] := List.eq_nil_of_length_eq_zero (by omega)
    subst this
    simp [stripAnsi_nil]
  | succ m ih =>
    intro s hs hcomp
    cases s with
    | nil => simp [stripAnsi_nil]
    | cons c cs =>
      cases hm : ansiMatch (c :: cs) with
      | some n =>
        rw [stripAnsi_cons_some c cs n hm]
        apply ih
        · simp only [List.length_drop, List.length_cons] at hs ⊢
          omega
        · have := hcomp.drop n
          cases n with
          | zero =>
            obtain ⟨seq, rest, _, ⟨ps, c', rfl, _, _⟩, hlen⟩ := ansiMatch_sound _ _ hm
            simp at hlen
          | succ n => simpa using this
      | none =>
        rw [stripAnsi_cons_none c cs hm]
        have hc : c ≠ esc := by
          rintro rfl
          obtain ⟨seq, rest, heq, hseq⟩ := hcomp [] cs rfl
          rw [heq, ansiMatch_complete seq rest hseq] at hm
          exact Option.noConfusion hm
        have hrest : esc ∉ stripAnsi cs :=
          ih cs (by simpa using hs) (by simpa using hcomp.drop 1)
        intro hmem
        rcases List.mem_cons.1 hmem with h | h
        · exact hc h.symm
        · exact hrest h

theorem mem_of_mem_splitLines : ∀ (s l : List Char), l ∈ splitLines s → ∀ c ∈ l, c ∈ s := by
  intro s
  induction s with
  | nil => intro l hl c hc; simp [splitLines] at hl; subst hl; simp at hc
  | cons x xs ih =>
    intro l hl c hc
    by_cases hx : x = '\n'
    · simp only [splitLines, hx, if_true, List.mem_cons] at hl
      rcases hl with rfl | hl
      · simp at hc
      · exact List.mem_cons_of_mem _ (ih l hl c hc)
    · simp only [splitLines, hx, if_false] at hl
      cases hsp : splitLines xs with
      | nil =>
        rw [hsp] at hl
        simp only [List.mem_singleton] at hl
        subst hl
        simp only [List.mem_singleton] at hc
        simp [hc]
      | cons l0 ls =>
        rw [hsp] at hl
        simp only [List.mem_cons] at hl
        rcases hl with rfl | hl
        · rcases List.mem_cons.1 hc with rfl | hc
          · simp
          · exact List.mem_cons_of_mem _ (ih l0 (by simp [hsp]) c hc)
        · exact List.mem_cons_of_mem _ (ih l (by simp [hsp, hl]) c hc)

theorem mem_joinLines : ∀ (ls : List (List Char)) (c : Char), c ∈ joinLines ls →
    c = '\n' ∨ ∃ l ∈ ls, c ∈ l := by
  intro ls
  induction ls with
  | nil => intro c hc; simp [joinLines] at hc
  | cons l ls ih =>
    intro c hc
    cases ls with
    | nil => simp only [joinLines] at hc; exact Or.inr ⟨l, by simp, hc⟩
    | cons l' ls =>
      simp only [joinLines, List.mem_append, List.mem_cons] at hc
      rcases hc with h | h | h
      · exact Or.inr ⟨l, by simp, h⟩
      · exact Or.inl h
      · rcases ih c h with h | ⟨l0, hl0, h⟩
        · exact Or.inl h
        · exact Or.inr ⟨l0, List.mem_cons_of_mem _ hl0, h⟩

theorem esc_mem_of_HasAnsiSeq (s : List Char) (h : HasAnsiSeq s) : esc ∈ s := by
  obtain ⟨seq, ⟨ps, c, rfl, _, _⟩, hin⟩ := h
  exact hin.subset (by simp)

theorem esc_not_mem_filterOutput (raw : List Char) (h : esc ∉ stripAnsi raw) :
    esc ∉ filterOutput.chars raw := by
  intro hmem
  simp only [filterOutput.chars, loop_eq_filter, List.nil_append] at hmem
  rcases mem_joinLines _ _ hmem with h' | ⟨l, hl, hc⟩
  · revert h'; decide
  · exact h (mem_of_mem_splitLines _ l (List.mem_filter.1 hl).1 esc hc)

theorem EscapesComplete_iff (s : List Char) : EscapesComplete s ↔ escapesCompleteB s = true := by
  simp only [escapesCompleteB, List.all_eq_true, List.mem_tails, Bool.or_eq_true, bne_iff_ne,
    ne_eq]
  constructor
  · intro h t ht
    by_cases hh : t.head? = some esc
    · right
      obtain ⟨suf, rfl⟩ := List.head?_eq_some_iff.1 hh
      obtain ⟨pre, rfl⟩ := ht
      obtain ⟨seq, rest, heq, hseq⟩ := h pre suf rfl
      rw [heq, ansiMatch_complete seq rest hseq]
      rfl
    · exact Or.inl hh
  · intro h pre suf hs
    rcases h (esc :: suf) ⟨pre, hs.symm⟩ with h' | h'
    · exact absurd rfl h'
    · obtain ⟨n, hn⟩ := Option.isSome_iff_exists.1 h'
      obtain ⟨seq, rest, heq, hseq, _⟩ := ansiMatch_sound _ _ hn
      exact ⟨seq, rest, heq, hseq⟩

theorem stripAnsi_of_no_esc : ∀ s : List Char, esc ∉ s → stripAnsi s = s := by
  intro s
  induction s with
  | nil => intro _; rfl
  | cons c cs ih =>
    intro h
    have hc : c ≠ esc := fun e => h (by simp [e])
    have hm : ansiMatch (c :: cs) = none := by
      cases cs with
      | nil => rfl
      | cons b cs => simp [ansiMatch, hc]
    rw [stripAnsi_cons_none c cs hm, ih (fun hmem => h (List.mem_cons_of_mem _ hmem))]

theorem splitLines_ne_nil (s : List Char) : splitLines s ≠ [] := by
  cases s with
  | nil => simp [splitLines]
  | cons c cs =>
    by_cases hc : c = '\n'
    · simp [splitLines, hc]
    · simp only [splitLines, hc, if_false]
      cases splitLines cs <;> simp

/-- Joining the lines of a text gives the text back. -/
theorem joinLines_splitLines : ∀ s : List Char, joinLines (splitLines s) = s := by
  intro s
  induction s with
  | nil => rfl
  | cons c cs ih =>
    by_cases hc : c = '\n'
    · simp only [splitLines, hc, if_true]
      cases hsp : splitLines cs with
      | nil => exact absurd hsp (splitLines_ne_nil cs)
      | cons l ls =>
        rw [hsp] at ih
        simp [joinLines, ih]
    · simp only [splitLines, hc, if_false]
      cases hsp : splitLines cs with
      | nil => exact absurd hsp (splitLines_ne_nil cs)
      | cons l ls =>
        rw [hsp] at ih
        cases ls with
        | nil => simp only [joinLines] at ih ⊢; rw [ih]
        | cons l' ls => simp only [joinLines] at ih ⊢; rw [← ih]; simp

/-- No line of a text contains a line break. -/
theorem newline_not_mem_splitLines : ∀ (s l : List Char), l ∈ splitLines s → '\n' ∉ l := by
  intro s
  induction s with
  | nil => intro l hl; simp [splitLines] at hl; subst hl; simp
  | cons c cs ih =>
    intro l hl
    by_cases hc : c = '\n'
    · simp only [splitLines, hc, if_true, List.mem_cons] at hl
      rcases hl with rfl | hl
      · simp
      · exact ih l hl
    · simp only [splitLines, hc, if_false] at hl
      cases hsp : splitLines cs with
      | nil => exact absurd hsp (splitLines_ne_nil cs)
      | cons l0 ls =>
        rw [hsp] at hl
        simp only [List.mem_cons] at hl
        rcases hl with rfl | hl
        · intro hmem
          rcases List.mem_cons.1 hmem with h | h
          · exact hc h.symm
          · exact ih l0 (by simp [hsp]) h
        · exact ih l (by simp [hsp, hl])

theorem ansiMatch_cons_of_ne (c : Char) (cs : List Char) (hc : c ≠ esc) :
    ansiMatch (c :: cs) = none := by
  cases cs with
  | nil => rfl
  | cons b cs => simp [ansiMatch, hc]

theorem ansiTail_stripAnsi_none : ∀ ds : List Char, ansiTail ds = none →
    (∀ ps suf, ds = ps ++ esc :: suf → ¬ ∀ p ∈ ps, isParam p = true) →
    ansiTail (stripAnsi ds) = none := by
  intro ds
  induction ds with
  | nil => intro _ _; rfl
  | cons e es ih =>
    intro ht hno
    have he : e ≠ esc := by
      rintro rfl
      exact hno [] es rfl (by simp)
    rw [stripAnsi_cons_none e es (ansiMatch_cons_of_ne e es he)]
    by_cases hp : isParam e = true
    · simp only [ansiTail, hp, if_true, Option.map_eq_none'] at ht ⊢
      apply ih ht
      intro ps suf hes hall
      apply hno (e :: ps) suf (by simp [hes])
      intro p hp'
      rcases List.mem_cons.1 hp' with rfl | hp'
      · exact hp
      · exact hall p hp'
    · have hp' : isParam e = false := by simpa using hp
      by_cases hf : isFinal e = true
      · simp [ansiTail, hp', hf] at ht
      · simp [ansiTail, hp', hf]

theorem EscapeRestarts.of_drop {s : List Char} (k : Nat) (h : EscapeRestarts (s.drop k)) :
    EscapeRestarts s := by
  obtain ⟨pre, ps, suf, hs, hps⟩ := h
  refine ⟨s.take k ++ pre, ps, suf, ?_, hps⟩
  rw [List.append_assoc, ← hs, List.take_append_drop]

theorem ansiMatch_esc_stripAnsi_none (cs : List Char) (hm : ansiMatch (esc :: cs) = none)
    (hno : ¬ EscapeRestarts (esc :: cs)) : ansiMatch (esc :: stripAnsi cs) = none := by
  cases cs with
  | nil => rfl
  | cons d ds =>
    have hd : d ≠ esc := by
      rintro rfl
      exact hno ⟨[], [], ds, rfl, Or.inl rfl⟩
    rw [stripAnsi_cons_none d ds (ansiMatch_cons_of_ne d ds hd)]
    by_cases hb : d = '['
    · subst hb
      have ht : ansiTail ds = none := by
        simpa [ansiMatch] using hm
      have := ansiTail_stripAnsi_none ds ht (by
        intro ps suf hds hall
        exact hno ⟨[], '[' :: ps, suf, by simp [hds], Or.inr ⟨ps, rfl, hall⟩⟩)
      simp [ansiMatch, this]
    · simp [ansiMatch, hb]

theorem ansiMatch_stripAnsi_none : ∀ (m : Nat) (s : List Char), s.length ≤ m →
    ¬ EscapeRestarts s → ∀ t, t <:+ stripAnsi s → ansiMatch t = none := by
  intro m
  induction m with
  | zero =>
    intro s hs _ t ht
    have : s = [] := List.eq_nil_of_length_eq_zero (by omega)
    subst this
    rw [stripAnsi_nil, List.suffix_nil] at ht
    subst ht
    rfl
  | succ m ih =>
    intro s hs hno t ht
    cases s with
    | nil =>
      rw [stripAnsi_nil, List.suffix_nil] at ht
      subst ht
      rfl
    | cons c cs =>
      cases hm : ansiMatch (c :: cs) with
      | some n =>
        rw [stripAnsi_cons_some c cs n hm] at ht
        refine ih (cs.drop (n - 1)) ?_ ?_ t ht
        · simp only [List.length_drop, List.length_cons] at hs ⊢
          omega
        · intro h
          exact hno (EscapeRestarts.of_drop ((n - 1) + 1) (by simpa using h))
      | none =>
        rw [stripAnsi_cons_none c cs hm, List.suffix_cons_iff] at ht
        have hcs : ¬ EscapeRestarts cs := fun h =>
          hno (EscapeRestarts.of_drop 1 (by simpa using h))
        rcases ht with rfl | ht
        · by_cases hc : c = esc
          · subst hc
            exact ansiMatch_esc_stripAnsi_none cs hm hno
          · exact ansiMatch_cons_of_ne c _ hc
        · exact ih cs (by simpa using hs) hcs t ht

theorem not_HasAnsiSeq_of_ansiMatch_none (s : List Char)
    (h : ∀ t, t <:+ s → ansiMatch t = none) : ¬ HasAnsiSeq s := by
  rintro ⟨seq, hseq, pre, post, rfl⟩
  have := h (seq ++ post) ⟨pre, by simp⟩
  rw [ansiMatch_complete seq post hseq] at this
  exact Option.noConfusion this

theorem newline_not_mem_of_IsAnsiSeq (seq : List Char) (h : IsAnsiSeq seq) : '\n' ∉ seq := by
  obtain ⟨ps, c, rfl, hps, hc⟩ := h
  intro hmem
  simp only [List.mem_cons, List.mem_append, List.mem_singleton] at hmem
  rcases hmem with h1 | h1 | h1 | h1
  · revert h1; decide
  · revert h1; decide
  · have := hps _ h1
    revert this; decide
  · have h2 : '\n' = c := by simpa using h1
    rw [← h2] at hc
    revert hc; decide

theorem prefix_of_prefix_append_cons {α : Type} (c : α) (v : List α) :
    ∀ (u seq : List α), seq <+: u ++ c :: v → c ∉ seq → seq <+: u := by
  intro u
  induction u with
  | nil =>
    intro seq h hc
    cases seq with
    | nil => exact List.prefix_refl _
    | cons x xs =>
      have : x = c := by
        obtain ⟨r, hr⟩ := h
        simp at hr
        exact hr.1
      exact absurd (by simp [this]) hc
  | cons y u ih =>
    intro seq h hc
    cases seq with
    | nil => exact List.nil_prefix
    | cons x xs =>
      obtain ⟨r, hr⟩ := h
      simp only [List.cons_append, List.cons.injEq] at hr
      obtain ⟨rfl, hr⟩ := hr
      have := ih xs ⟨r, hr⟩ (fun hm => hc (List.mem_cons_of_mem _ hm))
      exact (List.prefix_cons_inj _).2 this

theorem infix_of_infix_append_cons {α : Type} (c : α) (b seq : List α) (hc : c ∉ seq) :
    ∀ a : List α, seq <:+: a ++ c :: b → seq <:+: a ∨ seq <:+: b := by
  intro a
  induction a with
  | nil =>
    intro h
    rw [List.nil_append, List.infix_cons_iff] at h
    rcases h with h | h
    · have := prefix_of_prefix_append_cons c b [] seq (by simpa using h) hc
      exact Or.inl this.isInfix
    · exact Or.inr h
  | cons x a ih =>
    intro h
    rw [List.cons_append, List.infix_cons_iff] at h
    rcases h with h | h
    · have := prefix_of_prefix_append_cons c b (x :: a) seq (by simpa using h) hc
      exact Or.inl this.isInfix
    · rcases ih h with h' | h'
      · exact Or.inl (List.infix_cons h')
      · exact Or.inr h'

theorem infix_line_of_infix_joinLines (seq : List Char) (hne : seq ≠ []) (hnl : '\n' ∉ seq) :
    ∀ ls : List (List Char), seq <:+: joinLines ls → ∃ l ∈ ls, seq <:+: l := by
  intro ls
  induction ls with
  | nil =>
    intro h
    simp only [joinLines, List.infix_nil] at h
    exact absurd h hne
  | cons l ls ih =>
    intro h
    cases ls with
    | nil => exact ⟨l, by simp, by simpa [joinLines] using h⟩
    | cons l' ls =>
      simp only [joinLines] at h
      rcases infix_of_infix_append_cons '\n' _ seq hnl l h with h' | h'
      · exact ⟨l, by simp, h'⟩
      · obtain ⟨l0, hl0, hin⟩ := ih h'
        exact ⟨l0, List.mem_cons_of_mem _ hl0, hin⟩

theorem infix_of_mem_splitLines : ∀ (s l : List Char), l ∈ splitLines s → l <:+: s := by
  intro s
  induction s with
  | nil => intro l hl; simp [splitLines] at hl; subst hl; exact List.infix_refl _
  | cons c cs ih =>
    intro l hl
    by_cases hc : c = '\n'
    · simp only [splitLines, hc, if_true, List.mem_cons] at hl
      rcases hl with rfl | hl
      · exact List.nil_infix
      · exact List.infix_cons (ih l hl)
    · simp only [splitLines, hc, if_false] at hl
      cases hsp : splitLines cs with
      | nil => exact absurd hsp (splitLines_ne_nil cs)
      | cons l0 ls =>
        rw [hsp] at hl
        simp only [List.mem_cons] at hl
        have hpre : l0 <+: cs := by
          have hj := joinLines_splitLines cs
          rw [hsp] at hj
          cases ls with
          | nil => simp only [joinLines] at hj; rw [hj]
          | cons l1 ls => simp only [joinLines] at hj; exact ⟨_, hj⟩
        rcases hl with rfl | hl
        · exact ((List.prefix_cons_inj c).2 hpre).isInfix
        · exact List.infix_cons (ih l (by simp [hsp, hl]))

/-- When no escape character of the input is followed, after an optional `[` with
parameter bytes, by another escape character, the output of `filterOutput` contains no
control sequence. -/
theorem filterOutput_no_sequence_of_no_restart (raw : String)
    (h : ¬ EscapeRestarts raw.data) : ¬ HasAnsiSeq (filterOutput raw).data := by
  rintro ⟨seq, hseq, hin⟩
  have hne : seq ≠ [] := by
    obtain ⟨ps, c, rfl, _, _⟩ := hseq
    simp
  simp only [filterOutput, filterOutput.chars, loop_eq_filter, List.nil_append] at hin
  obtain ⟨l, hl, hinl⟩ :=
    infix_line_of_infix_joinLines seq hne (newline_not_mem_of_IsAnsiSeq seq hseq) _ hin
  have hls := infix_of_mem_splitLines _ l (List.mem_filter.1 hl).1
  exact not_HasAnsiSeq_of_ansiMatch_none (stripAnsi raw.data)
    (ansiMatch_stripAnsi_none _ raw.data (le_refl _) h) ⟨seq, hseq, hinl.trans hls⟩

theorem not_EscapeRestarts_of_count (s : List Char) (h : s.count esc ≤ 1) :
    ¬ EscapeRestarts s := by
  rintro ⟨pre, ps, suf, rfl, _⟩
  simp only [List.count_append, List.count_cons_self] at h
  omega

/-- The text `ESC[?25hHello`, whose escape character begins no control sequence, comes
out without a control sequence. -/
theorem filterOutput_no_sequence_example :
    ¬ HasAnsiSeq (filterOutput "\x1b[?25hHello").data :=
  filterOutput_no_sequence_of_no_restart "\x1b[?25hHello"
    (not_EscapeRestarts_of_count _ (by decide))

/-- C8 on the code: in the text `ESC[ESC[31m31mHello` the only match of the pattern is the
inner `ESC[31m`; its removal leaves `ESC[31mHello`, so the output of `filterOutput`
contains a control sequence. -/
theorem filterOutput_leaves_sequence :
    filterOutput "\x1b[\x1b[31m31mHello" = "\x1b[31mHello" ∧
    HasAnsiSeq (filterOutput "\x1b[\x1b[31m31mHello").data := by
  have h : filterOutput "\x1b[\x1b[31m31mHello" = "\x1b[31mHello" := by decide
  refine ⟨h, ?_⟩
  rw [h]
  refine ⟨esc :: '[' :: (['3', '1'] ++ ['m']), ⟨['3', '1'], 'm', rfl, by decide, by decide⟩, ?_⟩
  exact ⟨[], "Hello".data, by decide⟩

/-- When every escape character of the input begins a control sequence, the output of
`filterOutput` contains no escape character and hence no control sequence. -/
theorem filterOutput_no_sequence (raw : String) (h : EscapesComplete raw.data) :
    esc ∉ (filterOutput raw).data ∧ ¬ HasAnsiSeq (filterOutput raw).data := by
  have hesc : esc ∉ (filterOutput raw).data :=
    esc_not_mem_filterOutput raw.data (esc_not_mem_stripAnsi _ raw.data (le_refl _) h)
  exact ⟨hesc, fun hs => hesc (esc_mem_of_HasAnsiSeq _ hs)⟩

/-- A coloured line followed by a reset comes out without escape characters. -/
theorem filterOutput_no_sequence_witness :
    EscapesComplete "\x1b[1;31mHello\x1b[0m\nDone".data ∧
    esc ∉ (filterOutput "\x1b[1;31mHello\x1b[0m\nDone").data ∧
    ¬ HasAnsiSeq (filterOutput "\x1b[1;31mHello\x1b[0m\nDone").data :=
  ⟨(EscapesComplete_iff _).2 (by decide),
    filterOutput_no_sequence "\x1b[1;31mHello\x1b[0m\nDone"
      ((EscapesComplete_iff _).2 (by decide))⟩

/-! ## Launch supervisor: proofs -/

theorem Send_forwarded (n : Notifier) (now name : String) (ty : EventType) (msg : String)
    (d : Data) :
    (n.Send now name ty msg d).forwarded = n.forwarded ++
      [{ Typ := ty, Name := name, Message := msg, Timestamp := now, Data := d }] := by
  by_cases h : now = ""
  · subst h; simp [Notifier.Send, Notifier.Forward]
  · simp [Notifier.Send, Notifier.Forward, h]

theorem Launch_of_running (p : Pipeline) (now : String) (environ : List String)
    (params : LaunchParams) (h : IsRunning p (Launch.name params) = true) :
    Launch p now environ params =
      (p.Send now (Launch.name params) EventFailed
        ("deployment already running for " ++ Launch.name params) Data.nil, none) := by
  unfold IsRunning at h
  simp [Launch, h]

theorem Launch_of_not_running (p : Pipeline) (now : String) (environ : List String)
    (params : LaunchParams) (h : IsRunning p (Launch.name params) = false) :
    Launch p now environ params =
      ({ p.Send now (Launch.name params) EventLaunching
            ("starting ec2-full-setup for " ++ Launch.name params) (Data.params params) with
          running := mapSet p.running (Launch.name params)
            (Launch.cmd p.dir environ (Launch.name params) params) },
        some (Launch.name params, Launch.cmd p.dir environ (Launch.name params) params)) := by
  unfold IsRunning at h
  simp [Launch, h, Pipeline.Send]

theorem body_running (p : Pipeline) (now name : String) (cmd : Cmd) (output : String)
    (err : Option String) : (Launch.body p now name cmd output err).running = p.running := by
  cases err <;> rfl

theorem body_forwarded (p : Pipeline) (now name : String) (cmd : Cmd) (output : String)
    (err : Option String) :
    (Launch.body p now name cmd output err).notifier.forwarded
      = p.notifier.forwarded ++ [terminalEvent now name output err] := by
  cases err <;> simp [Launch.body, Pipeline.Send, Send_forwarded, terminalEvent]

theorem body_executed (p : Pipeline) (now name : String) (cmd : Cmd) (output : String)
    (err : Option String) :
    (Launch.body p now name cmd output err).executed = p.executed ++ [cmd] := by
  cases err <;> rfl

theorem goroutine_not_running (p : Pipeline) (now name : String) (cmd : Cmd) (output : String)
    (err : Option String) : IsRunning (Launch.goroutine p now name cmd output err) name = false := by
  simp [IsRunning, Launch.goroutine, Launch.cleanup, mapDelete]

theorem Action.apply_keeps_running (name : String) (p : Pipeline) (a : Action)
    (ha : ¬ a.completes name) (h : IsRunning p name = true) :
    IsRunning (a.apply p) name = true := by
  cases a with
  | launch now environ params =>
    by_cases hr : IsRunning p (Launch.name params) = true
    · simpa [Action.apply, Launch_of_running p now environ params hr, IsRunning, Pipeline.Send]
        using h
    · have hr' : IsRunning p (Launch.name params) = false := by simpa using hr
      simp only [Action.apply, Launch_of_not_running p now environ params hr', IsRunning,
        mapSet]
      by_cases hn : name = Launch.name params
      · simp [hn]
      · simpa [hn, IsRunning, Pipeline.Send] using h
  | complete now n cmd output err =>
    have hn : ¬ name = n := fun e => ha e.symm
    simpa [Action.apply, Launch.goroutine, Launch.cleanup, IsRunning, mapDelete, hn,
      body_running] using h

theorem foldl_apply_keeps_running (name : String) (acts : List Action) :
    ∀ p : Pipeline, (∀ a ∈ acts, ¬ a.completes name) → IsRunning p name = true →
      IsRunning (acts.foldl Action.apply p) name = true := by
  induction acts with
  | nil => intro p _ h; simpa using h
  | cons a acts ih =>
    intro p hacts h
    simp only [List.foldl_cons]
    exact ih _ (fun b hb => hacts b (by simp [hb]))
      (Action.apply_keeps_running name p a (hacts a (by simp)) h)

/-- C2: let the identity of a launch request be its name, or `main` when the name is
empty. When that identity is a key of the running map, `Launch` emits exactly one event,
of kind `failed`, for that identity and with the message `deployment already running for`
followed by the identity; it emits no launching event, starts no goroutine, builds and
executes no command, and leaves the running map unchanged. -/
theorem Launch_conflict (p : Pipeline) (now : String) (environ : List String)
    (params : LaunchParams) (name : String)
    (hname : name = if params.Name = "" then "main" else params.Name)
    (h : (p.running name).isSome = true) :
    (Launch p now environ params).1.notifier.forwarded
      = p.notifier.forwarded ++
        [{ Typ := "failed", Name := name, Message := "deployment already running for " ++ name,
           Timestamp := now, Data := Data.nil }] ∧
    (∀ e ∈ (Launch p now environ params).1.notifier.forwarded,
      e ∈ p.notifier.forwarded ∨ e.Typ ≠ "launching") ∧
    (Launch p now environ params).2 = none ∧
    (Launch p now environ params).1.executed = p.executed ∧
    (Launch p now environ params).1.running = p.running ∧
    (∀ w : Readings, (Launch.step p w (.start params)).2 = LaunchPC.done) ∧
    (params.Name = "" → name = "main") ∧ (params.Name ≠ "" → name = params.Name) := by
  have hfw : (Launch p now environ params).1.notifier.forwarded
      = p.notifier.forwarded ++
        [{ Typ := "failed", Name := name, Message := "deployment already running for " ++ name,
           Timestamp := now, Data := Data.nil }] := by
    subst hname
    by_cases hn : params.Name = ""
    · simp only [hn, if_true] at h
      simp [Launch, Launch.name, hn, h, Pipeline.Send, Send_forwarded, EventFailed]
    · simp only [hn, if_false] at h
      simp [Launch, Launch.name, hn, h, Pipeline.Send, Send_forwarded, EventFailed]
  refine ⟨hfw, ?_, ?_, ?_, ?_, ?_, ?_, ?_⟩
  · intro e he
    rw [hfw, List.mem_append, List.mem_singleton] at he
    rcases he with he | he
    · exact Or.inl he
    · right
      rw [he]
      show ("failed" : String) ≠ "launching"
      decide
  · subst hname
    by_cases hn : params.Name = ""
    · simp only [hn, if_true] at h
      simp [Launch, Launch.name, hn, h]
    · simp only [hn, if_false] at h
      simp [Launch, Launch.name, hn, h]
  · subst hname
    by_cases hn : params.Name = ""
    · simp only [hn, if_true] at h
      simp [Launch, Launch.name, hn, h, Pipeline.Send]
    · simp only [hn, if_false] at h
      simp [Launch, Launch.name, hn, h, Pipeline.Send]
  · subst hname
    by_cases hn : params.Name = ""
    · simp only [hn, if_true] at h
      simp [Launch, Launch.name, hn, h, Pipeline.Send]
    · simp only [hn, if_false] at h
      simp [Launch, Launch.name, hn, h, Pipeline.Send]
  · intro w
    subst hname
    by_cases hn : params.Name = ""
    · simp only [hn, if_true] at h
      simp [Launch.step, Launch.name, hn, h]
    · simp only [hn, if_false] at h
      simp [Launch.step, Launch.name, hn, h]
  · intro hn
    rw [hname, if_pos hn]
  · intro hn
    rw [hname, if_neg hn]

/-- Witness of C2: a launch with the empty name while `main` is registered, and a launch
of `x` while `x` is registered. -/
theorem Launch_conflict_witness :
    (((Launch examplePipeline "t0" [] unnamedParams).1.running "main").isSome = true ∧
      (Launch (Launch examplePipeline "t0" [] unnamedParams).1 "t1" []
          unnamedParams).1.notifier.forwarded
        = (Launch examplePipeline "t0" [] unnamedParams).1.notifier.forwarded ++
          [{ Typ := "failed", Name := "main",
             Message := "deployment already running for " ++ "main",
             Timestamp := "t1", Data := Data.nil }]) ∧
    (((Launch examplePipeline "t0" [] exampleParams).1.running "x").isSome = true ∧
      (Launch (Launch examplePipeline "t0" [] exampleParams).1 "t1" [] exampleParams).2
        = none) :=
  ⟨⟨by decide,
      (Launch_conflict (Launch examplePipeline "t0" [] unnamedParams).1 "t1" [] unnamedParams
        "main" (by decide) (by decide)).1⟩,
    ⟨by decide,
      (Launch_conflict (Launch examplePipeline "t0" [] exampleParams).1 "t1" [] exampleParams
        "x" (by decide) (by decide)).2.2.1⟩⟩

/-- When a call of `Launch` runs up to its `go` statement without interruption and passes
the conflict check, the identity is a key of the running map once the command is
registered, it stays one while other such calls are made and launches of other identities
complete, and it still is one when the goroutine has sent the terminal event; once the
goroutine has completed, with or without an error of the process, the identity is no
longer a key. -/
theorem Launch_uninterrupted_registry (p : Pipeline) (now : String) (environ : List String)
    (params : LaunchParams) (h : IsRunning p (Launch.name params) = false) :
    ∃ cmd, (Launch p now environ params).2 = some (Launch.name params, cmd) ∧
      IsRunning (Launch p now environ params).1 (Launch.name params) = true ∧
      ∀ acts : List Action, (∀ a ∈ acts, ¬ a.completes (Launch.name params)) →
        ∀ (now2 output : String) (err : Option String),
          IsRunning (acts.foldl Action.apply (Launch p now environ params).1)
            (Launch.name params) = true ∧
          IsRunning (Launch.body (acts.foldl Action.apply (Launch p now environ params).1)
            now2 (Launch.name params) cmd output err) (Launch.name params) = true ∧
          IsRunning (Launch.goroutine (acts.foldl Action.apply (Launch p now environ params).1)
            now2 (Launch.name params) cmd output err) (Launch.name params) = false := by
  have hreg : IsRunning (Launch p now environ params).1 (Launch.name params) = true := by
    rw [Launch_of_not_running p now environ params h]
    simp [IsRunning, mapSet]
  refine ⟨Launch.cmd p.dir environ (Launch.name params) params, ?_, hreg, ?_⟩
  · rw [Launch_of_not_running p now environ params h]
  · intro acts hacts now2 output err
    have hk := foldl_apply_keeps_running (Launch.name params) acts _ hacts hreg
    refine ⟨hk, ?_, goroutine_not_running _ _ _ _ _ _⟩
    unfold IsRunning at hk ⊢
    rw [body_running]
    exact hk

/-- C3 on the code: two calls of `Launch` for the identity `x` both pass the conflict
check before either registers. After the first call has completed, its deferred function
has deleted the key `x`: the second call has registered its command and its completion
step has not run, and `IsRunning` returns false for `x`. -/
theorem Launch_race_entry_deleted :
    IsRunning twoCalls.pipeline "x" = false ∧
    (twoCalls.run firstCompletes).calls
      = [.done, .spawned "x" (Launch.cmd "/app/pipeline" ["PATH=/usr/bin"] "x" exampleParams)] ∧
    IsRunning (twoCalls.run (firstCompletes.take 6)).pipeline "x" = true ∧
    IsRunning (twoCalls.run firstCompletes).pipeline "x" = false ∧
    (twoCalls.run firstCompletes).pipeline.notifier.forwarded.map (fun e => e.Typ)
      = ["launching", "launching", "completed"] := by
  refine ⟨by decide, by decide, by decide, by decide, by decide⟩

/-- C4: a launch whose identity is not in the running map emits exactly one launching
event and its goroutine then emits exactly one terminal event for the same identity,
whatever the output and the error of the process: the terminal event is `completed` when
there is no error and `failed` otherwise, and a failed event carries the identity and
`filterOutput` of the captured output as its error detail. -/
theorem Launch_event_sequence (p : Pipeline) (now : String) (environ : List String)
    (params : LaunchParams) (now2 output : String) (err : Option String)
    (h : IsRunning p (Launch.name params) = false) :
    ∃ cmd, (Launch p now environ params).2 = some (Launch.name params, cmd) ∧
      (Launch p now environ params).1.notifier.forwarded
        = p.notifier.forwarded ++ [launchingEvent now params] ∧
      (∀ q : Pipeline, (Launch.goroutine q now2 (Launch.name params) cmd output err).notifier.forwarded
        = q.notifier.forwarded ++ [terminalEvent now2 (Launch.name params) output err]) ∧
      (Launch.goroutine (Launch p now environ params).1 now2 (Launch.name params) cmd output
          err).notifier.forwarded
        = p.notifier.forwarded ++
          [launchingEvent now params, terminalEvent now2 (Launch.name params) output err] ∧
      (launchingEvent now params).Typ = "launching" ∧
      (launchingEvent now params).Name = Launch.name params ∧
      (terminalEvent now2 (Launch.name params) output err).Name = Launch.name params ∧
      (terminalEvent now2 (Launch.name params) output err).Typ
        = (if err = none then "completed" else "failed") ∧
      (∀ e, err = some e → (terminalEvent now2 (Launch.name params) output err).Data
        = Data.result { Name := Launch.name params, Error := filterOutput output }) ∧
      EventCompleted ≠ EventFailed ∧ EventLaunching ≠ EventCompleted ∧
      EventLaunching ≠ EventFailed := by
  have hL : (Launch p now environ params).1.notifier.forwarded
      = p.notifier.forwarded ++ [launchingEvent now params] := by
    rw [Launch_of_not_running p now environ params h]
    simp [Pipeline.Send, Send_forwarded, launchingEvent]
  have hG : ∀ (q : Pipeline) (cmd : Cmd),
      (Launch.goroutine q now2 (Launch.name params) cmd output err).notifier.forwarded
        = q.notifier.forwarded ++ [terminalEvent now2 (Launch.name params) output err] := by
    intro q cmd
    simp only [Launch.goroutine, Launch.cleanup]
    exact body_forwarded q now2 _ cmd output err
  refine ⟨Launch.cmd p.dir environ (Launch.name params) params, ?_, hL, fun q => hG q _, ?_,
    rfl, rfl, ?_, ?_, ?_, by decide, by decide, by decide⟩
  · rw [Launch_of_not_running p now environ params h]
  · rw [hG, hL]; simp
  · cases err <;> rfl
  · cases err <;> simp [terminalEvent, EventCompleted, EventFailed]
  · intro e he; subst he; rfl

/-- Witness of C4: the launch of `x` on an empty registry, the process failing. -/
theorem Launch_event_sequence_witness :
    IsRunning examplePipeline (Launch.name exampleParams) = false ∧
    ∃ cmd, (Launch examplePipeline "t0" [] exampleParams).2
        = some (Launch.name exampleParams, cmd) ∧
      (Launch examplePipeline "t0" [] exampleParams).1.notifier.forwarded
        = examplePipeline.notifier.forwarded ++ [launchingEvent "t0" exampleParams] :=
  ⟨by decide,
    (Launch_event_sequence examplePipeline "t0" [] exampleParams "t1" "boom"
      (some "exit status 2") (by decide)).imp (fun _ hc => ⟨hc.1, hc.2.1⟩)⟩

/-- The three steps of one call of `Launch`, made without interruption, are the method
`Launch`. -/
theorem Launch_eq_steps (p : Pipeline) (w : Readings) (params : LaunchParams) :
    let s1 := Launch.step p w (.start params)
    let s2 := Launch.step s1.1 w s1.2
    let s3 := Launch.step s2.1 w s2.2
    (Launch p w.now w.environ params).1.running = s3.1.running ∧
    (Launch p w.now w.environ params).1.notifier.forwarded = s3.1.notifier.forwarded ∧
    (Launch p w.now w.environ params).1.executed = s3.1.executed ∧
    s3.2 = (match (Launch p w.now w.environ params).2 with
      | some r => LaunchPC.spawned r.1 r.2
      | none => LaunchPC.done) := by
  by_cases h : (p.running (Launch.name params)).isSome = true
  · simp [Launch, Launch.step, h]
  · simp [Launch, Launch.step, h, Pipeline.Send]

/-- C5 fails: the argument list that `Launch` assembles for a request with the credential
token `tok` has the element `CLAUDE_CODE_OAUTH_TOKEN=tok`, which contains the token. -/
theorem Launch_args_contain_token :
    exampleParams.ClaudeCodeOAuthToken ≠ "" ∧
    ∃ cmd, (Launch examplePipeline "t0" [] exampleParams).2 = some ("x", cmd) ∧
      "CLAUDE_CODE_OAUTH_TOKEN=tok" ∈ cmd.Args ∧
      Contains "CLAUDE_CODE_OAUTH_TOKEN=tok".data exampleParams.ClaudeCodeOAuthToken.data = true ∧
      exampleParams.ClaudeCodeOAuthToken.data <:+: "CLAUDE_CODE_OAUTH_TOKEN=tok".data := by
  refine ⟨by decide, Launch.cmd "/app/pipeline" [] "x" exampleParams, by decide, by decide,
    by decide, ?_⟩
  exact (Contains_iff_isInfix _ _).1 (by decide)

/-- C5 as amended: for a launch that passes the conflict check, the argument list is
`make`, `ec2-full-setup`, `NAME=` with the identity and `CLOUDFLARE=` with the flag,
followed by `CLAUDE_CODE_OAUTH_TOKEN=` with the credential token when that token is not
empty and by `TOKEN=` with the auxiliary token when that token is not empty; the
environment is the inherited one followed by `CLAUDE_CODE_OAUTH_TOKEN=` with the credential
token and, when the auxiliary token is not empty, `OPENCLAW_GATEWAY_TOKEN=` with it. -/
theorem Launch_args_and_env (p : Pipeline) (now : String) (environ : List String)
    (params : LaunchParams) (h : IsRunning p (Launch.name params) = false) :
    ∃ cmd, (Launch p now environ params).2 = some (Launch.name params, cmd) ∧
      cmd.Args =
        ["make", "ec2-full-setup", "NAME=" ++ Launch.name params,
          "CLOUDFLARE=" ++ (if params.Cloudflare then "true" else "false")]
        ++ (if params.ClaudeCodeOAuthToken = "" then []
            else ["CLAUDE_CODE_OAUTH_TOKEN=" ++ params.ClaudeCodeOAuthToken])
        ++ (if params.Token = "" then [] else ["TOKEN=" ++ params.Token]) ∧
      cmd.Env =
        environ ++ ["CLAUDE_CODE_OAUTH_TOKEN=" ++ params.ClaudeCodeOAuthToken]
        ++ (if params.Token = "" then [] else ["OPENCLAW_GATEWAY_TOKEN=" ++ params.Token]) ∧
      cmd.Dir = p.dir := by
  refine ⟨Launch.cmd p.dir environ (Launch.name params) params, ?_, ?_, ?_, rfl⟩
  · rw [Launch_of_not_running p now environ params h]
  · by_cases h1 : params.ClaudeCodeOAuthToken = "" <;> by_cases h2 : params.Token = "" <;>
      simp [Launch.cmd, Launch.args, h1, h2]
  · by_cases h2 : params.Token = "" <;> simp [Launch.cmd, h2]

/-- Witness of C5 as amended: the launch of `x` on an empty registry. -/
theorem Launch_args_and_env_witness :
    IsRunning examplePipeline (Launch.name exampleParams) = false ∧
    ∃ cmd, (Launch examplePipeline "t0" ["PATH=/usr/bin"] exampleParams).2
        = some (Launch.name exampleParams, cmd) ∧
      cmd.Args = ["make", "ec2-full-setup", "NAME=x", "CLOUDFLARE=true",
        "CLAUDE_CODE_OAUTH_TOKEN=tok"] ∧
      cmd.Env = ["PATH=/usr/bin", "CLAUDE_CODE_OAUTH_TOKEN=tok"] :=
  ⟨by decide,
    (Launch_args_and_env examplePipeline "t0" ["PATH=/usr/bin"] exampleParams (by decide)).imp
      (fun _ hc => ⟨hc.1, hc.2.1.trans (by decide), hc.2.2.1.trans (by decide)⟩)⟩

/-- C6 fails: the launching event that `Launch` hands to the notifier for a request with
the credential token `tok` has the request as its payload, which contains the token. -/
theorem Launch_launching_payload_contains_token :
    exampleParams.ClaudeCodeOAuthToken ≠ "" ∧
    (Launch examplePipeline "t0" [] exampleParams).1.notifier.forwarded
      = [launchingEvent "t0" exampleParams] ∧
    (launchingEvent "t0" exampleParams).Data = Data.params exampleParams ∧
    (launchingEvent "t0" exampleParams).Data.mentions exampleParams.ClaudeCodeOAuthToken := by
  refine ⟨by decide, by decide, rfl, "tok", by decide, ?_⟩
  exact List.infix_refl _

/-- C6 as amended: the payload of the launching event is the launch request itself, with
the credential token and the auxiliary token in its fields; the event of the conflict path
has no payload, and the payload of a terminal event consists of the identity and, for a
failed event with a non-empty filtered output, `filterOutput` of the captured output. -/
theorem Launch_event_payloads (p : Pipeline) (now : String) (environ : List String)
    (params : LaunchParams) (now2 output : String) (err : Option String) :
    (IsRunning p (Launch.name params) = true →
      (Launch p now environ params).1.notifier.forwarded
        = p.notifier.forwarded ++ [conflictEvent now (Launch.name params)] ∧
      (conflictEvent now (Launch.name params)).Data.strings = []) ∧
    (IsRunning p (Launch.name params) = false →
      (Launch p now environ params).1.notifier.forwarded
        = p.notifier.forwarded ++ [launchingEvent now params] ∧
      (launchingEvent now params).Data = Data.params params ∧
      (launchingEvent now params).Data.strings
        = [params.Name, params.Token, params.ClaudeCodeOAuthToken] ∧
      (launchingEvent now params).Data.mentions params.Token ∧
      (launchingEvent now params).Data.mentions params.ClaudeCodeOAuthToken) ∧
    (∀ (q : Pipeline) (cmd : Cmd),
      (Launch.goroutine q now2 (Launch.name params) cmd output err).notifier.forwarded
        = q.notifier.forwarded ++ [terminalEvent now2 (Launch.name params) output err] ∧
      ∀ s ∈ (terminalEvent now2 (Launch.name params) output err).Data.strings,
        s = Launch.name params ∨ (err ≠ none ∧ s = filterOutput output)) := by
  refine ⟨?_, ?_, ?_⟩
  · intro h
    rw [Launch_of_running p now environ params h]
    exact ⟨by simp [Pipeline.Send, Send_forwarded, conflictEvent], rfl⟩
  · intro h
    rw [Launch_of_not_running p now environ params h]
    refine ⟨by simp [Pipeline.Send, Send_forwarded, launchingEvent], rfl, rfl, ?_, ?_⟩
    · exact ⟨params.Token, by simp [launchingEvent, Data.strings], List.infix_refl _⟩
    · exact ⟨params.ClaudeCodeOAuthToken, by simp [launchingEvent, Data.strings],
        List.infix_refl _⟩
  · intro q cmd
    refine ⟨?_, ?_⟩
    · simp only [Launch.goroutine, Launch.cleanup]
      exact body_forwarded q now2 _ cmd output err
    · intro s hs
      cases err with
      | none =>
        simp [terminalEvent, Data.strings] at hs
        exact Or.inl hs
      | some e =>
        by_cases ho : filterOutput output = ""
        · simp [terminalEvent, Data.strings, ho] at hs
          exact Or.inl hs
        · simp [terminalEvent, Data.strings, ho] at hs
          rcases hs with hs | hs
          · exact Or.inl hs
          · exact Or.inr ⟨by simp, hs⟩

/-- Witness of C6 as amended: the launch of `x` on an empty registry and a second launch
of `x` while it is registered. -/
theorem Launch_event_payloads_witness :
    (IsRunning examplePipeline (Launch.name exampleParams) = false ∧
      (launchingEvent "t0" exampleParams).Data.strings = ["x", "", "tok"]) ∧
    (IsRunning (Launch examplePipeline "t0" [] exampleParams).1 (Launch.name exampleParams)
        = true ∧
      (conflictEvent "t1" (Launch.name exampleParams)).Data.strings = []) :=
  ⟨⟨by decide,
      ((Launch_event_payloads examplePipeline "t0" [] exampleParams "t1" "" none).2.1
        (by decide)).2.2.1⟩,
    ⟨by decide,
      ((Launch_event_payloads (Launch examplePipeline "t0" [] exampleParams).1 "t1" []
        exampleParams "t2" "" none).1 (by decide)).2⟩⟩

/-- C10 on the code: two calls of `Launch` with the identity `x` start on an empty
registry; when both make the conflict check before either registers its command, both
pass it, both send a launching event, both register a command, and both commands are
executed. -/
theorem Launch_race_both_spawn :
    IsRunning examplePipeline "x" = false ∧
    (System.run { pipeline := examplePipeline,
                  calls := [.start exampleParams, .start exampleParams] }
        [(0, exampleReadings), (1, exampleReadings), (0, exampleReadings),
         (1, exampleReadings), (0, exampleReadings), (1, exampleReadings)]).calls
      = [.spawned "x" (Launch.cmd "/app/pipeline" ["PATH=/usr/bin"] "x" exampleParams),
         .spawned "x" (Launch.cmd "/app/pipeline" ["PATH=/usr/bin"] "x" exampleParams)] ∧
    (System.run { pipeline := examplePipeline,
                  calls := [.start exampleParams, .start exampleParams] }
        [(0, exampleReadings), (1, exampleReadings), (0, exampleReadings),
         (1, exampleReadings), (0, exampleReadings),
         (1, exampleReadings)]).pipeline.notifier.forwarded.map (fun e => e.Typ)
      = ["launching", "launching"] ∧
    (System.run { pipeline := examplePipeline,
                  calls := [.start exampleParams, .start exampleParams] }
        [(0, exampleReadings), (1, exampleReadings), (0, exampleReadings),
         (1, exampleReadings), (0, exampleReadings), (1, exampleReadings),
         (0, exampleReadings), (1, exampleReadings)]).pipeline.executed
      = [Launch.cmd "/app/pipeline" ["PATH=/usr/bin"] "x" exampleParams,
         Launch.cmd "/app/pipeline" ["PATH=/usr/bin"] "x" exampleParams] := by
  refine ⟨by decide, by decide, by decide, by decide⟩

end OpenClaw
